import Mathlib

/-!
Shallow embedding of the `lru-mem` crate (`src/lib.rs`): a size-bounded LRU
cache.  The recency list (a doubly-linked list in the source, head = MRU,
tail = LRU) is modelled as a `List` in LRU-to-MRU order: index 0 is the tail
(least-recently-used), the last element is the head (most-recently-used).
The hash table stores the same entries as the list; lookup by key is
modelled by searching the list (the no-duplicate-keys invariant makes the
two views interchangeable).  Sizes (`usize` in the source) are modelled as
`Nat`.  The size-estimation capability (`MemSize`, an external trait) is
injected as functions `sizeK : K → Nat`, `sizeV : V → Nat`, and the
per-entry metadata constant `mem::size_of::<Entry<(), ()>>()` as
`metaSize : Nat`.
-/

set_option linter.unusedSectionVars false

namespace LruMem

/-- Embeds `struct Entry<K, V>` from `src/lib.rs`.  The `prev`/`next`
pointers of the source are the linked-list structure itself, which the
enclosing `List` represents; the remaining payload is `size`, `key`,
`value`. -/
structure Entry (K V : Type) where
  size : Nat
  key : K
  value : V
  deriving DecidableEq, Repr

/-- Embeds `LruError` as used in `src/lib.rs` (`LruError::EntryTooLarge`
with fields `key`, `value`, `entry_size`, `max_size`). -/
inductive LruError (K V : Type) where
  | entryTooLarge (key : K) (value : V) (entry_size : Nat) (max_size : Nat)
  deriving DecidableEq, Repr

/-- Embeds `struct LruCache<K, V, S>`.  `head`/`tail` pointers are
represented by the `entries` list (LRU first, MRU last); the `table` is
represented by the same list; `capacity` abstracts `table.capacity()`.
The `hash_builder` is an injected capability with no observable effect in
this model. -/
structure Cache (K V : Type) where
  entries : List (Entry K V)
  current_size : Nat
  max_size : Nat
  capacity : Nat
  deriving DecidableEq, Repr

variable {K V R : Type} [DecidableEq K]

/-- Key-equality predicate used for table lookups (`equivalent_key`). -/
def keyEq (k : K) : Entry K V → Bool :=
  fun e => decide (e.key = k)

/-- Sum of the `size` fields of a list of entries. -/
def sizesOf (es : List (Entry K V)) : Nat :=
  (es.map Entry.size).sum

/-- Embeds `get_from_table` / `get_mut_from_table`: hash lookup of the entry
with the given key. -/
def findEntry (c : Cache K V) (k : K) : Option (Entry K V) :=
  c.entries.find? (keyEq k)

/-- Embeds `LruCache::contains`. -/
def contains (c : Cache K V) (k : K) : Bool :=
  (findEntry c k).isSome

/-- Embeds `LruCache::len` (`table.len()`). -/
def len (c : Cache K V) : Nat :=
  c.entries.length

/-- Embeds `remove_ptr` applied to the entry found for key `k` (as in
`remove_entry`): unhinge from the list, remove from the table, debit the
ledger, and return the key and value.  Absent key: no change. -/
def removeKey (c : Cache K V) (k : K) : Option (K × V) × Cache K V :=
  match findEntry c k with
  | none => (none, c)
  | some e =>
    (some (e.key, e.value),
     { c with entries := c.entries.eraseP (keyEq k),
              current_size := c.current_size - e.size })

/-- Embeds `LruCache::remove_lru` (`remove_checked_ptr(self.tail)`): remove
the tail (= first element of the LRU-first list) and debit the ledger. -/
def remove_lru (c : Cache K V) : Option (K × V) × Cache K V :=
  match c.entries with
  | [] => (none, c)
  | e :: rest =>
    (some (e.key, e.value),
     { c with entries := rest, current_size := c.current_size - e.size })

/-- Embeds `LruCache::remove_mru` (`remove_checked_ptr(self.head)`): remove
the head (= last element of the LRU-first list) and debit the ledger. -/
def remove_mru (c : Cache K V) : Option (K × V) × Cache K V :=
  match c.entries.getLast? with
  | none => (none, c)
  | some e =>
    (some (e.key, e.value),
     { c with entries := c.entries.dropLast,
              current_size := c.current_size - e.size })

/-- Embeds `LruCache::touch`: if the key is present, `touch_ptr` unhinges
the entry and makes it the new head (MRU), i.e. moves it to the end of the
LRU-first list. -/
def touch (c : Cache K V) (k : K) : Cache K V :=
  match findEntry c k with
  | none => c
  | some e => { c with entries := c.entries.eraseP (keyEq k) ++ [e] }

/-- Embeds `LruCache::get`: on a hit, `touch_ptr` the entry and return a
reference to its value. -/
def get (c : Cache K V) (k : K) : Option V × Cache K V :=
  match findEntry c k with
  | none => (none, c)
  | some e => (some e.value, { c with entries := c.entries.eraseP (keyEq k) ++ [e] })

/-- Embeds `LruCache::get_lru`: if the cache is non-empty, save the tail
pointer, `touch_ptr` the tail (making it MRU), and return the saved entry's
key and value. -/
def get_lru (c : Cache K V) : Option (K × V) × Cache K V :=
  match c.entries with
  | [] => (none, c)
  | e :: rest => (some (e.key, e.value), { c with entries := rest ++ [e] })

/-- Embeds `LruCache::peek_lru`. -/
def peek_lru (c : Cache K V) : Option (K × V) :=
  c.entries.head?.map (fun e => (e.key, e.value))

/-- Embeds `LruCache::peek_mru`. -/
def peek_mru (c : Cache K V) : Option (K × V) :=
  c.entries.getLast?.map (fun e => (e.key, e.value))

/-- Embeds the loop `eject_to_target` runs on the list and the ledger:
`while current_size > target { remove_lru() }`.  On a state where the list
is empty while `current_size > target`, the source loop makes no progress
and never exits; every reachable state has `current_size` equal to the sum
of entry sizes, on which the loop always terminates (see the termination
development below, which analyses the loop via its step function
`ejectStep`, including its divergence on the degenerate state). -/
def ejectList (target : Nat) : List (Entry K V) → Nat → List (Entry K V) × Nat
  | [], cs => ([], cs)
  | e :: rest, cs =>
    if cs ≤ target then (e :: rest, cs)
    else ejectList target rest (cs - e.size)

/-- Embeds `LruCache::eject_to_target` on the cache state. -/
def eject_to_target (c : Cache K V) (target : Nat) : Cache K V :=
  { c with entries := (ejectList target c.entries c.current_size).1,
           current_size := (ejectList target c.entries c.current_size).2 }

/-- One iteration of the `eject_to_target` loop body: if
`current_size > target`, perform `remove_lru` (which is a no-op on an empty
cache), otherwise leave the state unchanged (the loop guard fails). -/
def ejectStep (target : Nat) (c : Cache K V) : Cache K V :=
  if target < c.current_size then (remove_lru c).2 else c

/-- Embeds `LruCache::set_max_size`: eject down to the new limit if needed,
then store the new limit. -/
def set_max_size (c : Cache K V) (m : Nat) : Cache K V :=
  let c1 := if m < c.current_size then eject_to_target c m else c
  { c1 with max_size := m }

/-- Embeds `LruCache::clear`: clear the table, null the sentinels, zero the
ledger (`max_size` and table capacity are kept). -/
def clear (c : Cache K V) : Cache K V :=
  { c with entries := [], current_size := 0 }

/-- Embeds `reallocate_with`: walk the list from the tail following `prev`
(collecting entries LRU first, i.e. exactly the LRU-first list), clear the
table without dropping, run the reallocation on the table (abstracted to
its effect on the capacity), null the sentinels, then `insert_untracked`
each salvaged entry — placing it in the table and splicing it at the head
(`set_head`), i.e. appending it at the MRU end. -/
def reallocate_with (c : Cache K V) (newCapacity : Nat) : Cache K V :=
  let salvaged := c.entries
  let cleared : Cache K V :=
    { c with entries := [], capacity := newCapacity }
  List.foldl (fun acc e => { acc with entries := acc.entries ++ [e] }) cleared salvaged

/-- Embeds `LruCache::reserve`: reallocate when the capacity is below
`len() + additional`. -/
def reserve (c : Cache K V) (additional : Nat) : Cache K V :=
  let new_capacity := len c + additional
  if c.capacity < new_capacity then reallocate_with c new_capacity else c

/-- Embeds the successful path of `LruCache::try_reserve` (allocation
failure comes from the external allocator and is not modelled; on success
the path is the same `reallocate_with` as `reserve`). -/
def try_reserve (c : Cache K V) (additional : Nat) : Cache K V :=
  let new_capacity := len c + additional
  if c.capacity < new_capacity then reallocate_with c new_capacity else c

/-- Embeds `LruCache::shrink_to`: reallocate when the capacity exceeds
`max(len(), min_capacity)`. -/
def shrink_to (c : Cache K V) (min_capacity : Nat) : Cache K V :=
  let new_capacity := max (len c) min_capacity
  if new_capacity < c.capacity then reallocate_with c new_capacity else c

/-- Embeds `LruCache::shrink_to_fit`. -/
def shrink_to_fit (c : Cache K V) : Cache K V :=
  shrink_to c 0

variable (sizeK : K → Nat) (sizeV : V → Nat) (metaSize : Nat)

/-- Embeds `Entry::new`: size is `key.mem_size() + value.mem_size() +
mem::size_of::<Entry<(), ()>>()`. -/
def Entry.new (key : K) (value : V) : Entry K V :=
  { size := sizeK key + sizeV value + metaSize, key := key, value := value }

/-- Embeds `LruCache::insert`.  The retry loop around
`insert_into_table` only reallocates the table (shown elsewhere to preserve
the list, the ledger and the limit) and then succeeds, so it is modelled as
the direct placement of the entry at the head. -/
def insert (c : Cache K V) (key : K) (value : V) :
    Except (LruError K V) (Option V) × Cache K V :=
  let entry := Entry.new sizeK sizeV metaSize key value
  if c.max_size < entry.size then
    (.error (.entryTooLarge key value entry.size c.max_size), c)
  else
    let removed := removeKey c key
    let result := removed.1.map Prod.snd
    let c2 := eject_to_target removed.2 (c.max_size - entry.size)
    (.ok result,
     { c2 with entries := c2.entries ++ [entry],
               current_size := c2.current_size + entry.size })

/-- Embeds `LruCache::mutate`.  The caller-supplied closure
`op: Fn(&mut V) -> R` mutates the value in place and returns a result; it
is modelled as `op : V → V × R` (new value, result). -/
def mutate (c : Cache K V) (k : K) (op : V → V × R) :
    Except (LruError K V) (Option R) × Cache K V :=
  match findEntry c k with
  | none => (.ok none, c)
  | some e =>
    let old_value_size := sizeV e.value
    let applied := op e.value
    let new_value_size := sizeV applied.1
    if old_value_size < new_value_size then
      let diff := new_value_size - old_value_size
      let new_entry_size := e.size + diff
      if c.max_size < new_entry_size then
        (.error (.entryTooLarge e.key applied.1 new_entry_size c.max_size),
         { c with entries := c.entries.eraseP (keyEq k),
                  current_size := c.current_size - e.size })
      else
        let e1 : Entry K V := { size := new_entry_size, key := e.key, value := applied.1 }
        let c1 : Cache K V :=
          { c with entries := c.entries.eraseP (keyEq k) ++ [e1],
                   current_size := c.current_size + diff }
        (.ok (some applied.2), eject_to_target c1 c.max_size)
    else
      let diff := old_value_size - new_value_size
      let e1 : Entry K V := { size := e.size - diff, key := e.key, value := applied.1 }
      (.ok (some applied.2),
       { c with entries := c.entries.eraseP (keyEq k) ++ [e1],
                current_size := c.current_size - diff })

/-- Ledger soundness: the `current_size` field equals the sum of the live
entries' cached sizes. -/
def Ledger (c : Cache K V) : Prop :=
  c.current_size = sizesOf c.entries

/-- Full well-formedness of a cache state: ledger soundness, every entry's
cached size agrees with the size estimator, and keys are pairwise
distinct. -/
def WF (c : Cache K V) : Prop :=
  Ledger c ∧
  (∀ e ∈ c.entries, e.size = sizeK e.key + sizeV e.value + metaSize) ∧
  (c.entries.map Entry.key).Nodup

/-- Ceiling: the ledger is within the configured limit. -/
def Ceiling (c : Cache K V) : Prop :=
  c.current_size ≤ c.max_size

theorem sizesOf_nil : sizesOf ([] : List (Entry K V)) = 0 := rfl

theorem sizesOf_cons (e : Entry K V) (l : List (Entry K V)) :
    sizesOf (e :: l) = e.size + sizesOf l := by
  simp [sizesOf]

theorem sizesOf_append (l1 l2 : List (Entry K V)) :
    sizesOf (l1 ++ l2) = sizesOf l1 + sizesOf l2 := by
  simp [sizesOf]

theorem find?_some_sizesOf {p : Entry K V → Bool} {l : List (Entry K V)}
    {e : Entry K V} (h : l.find? p = some e) :
    sizesOf l = e.size + sizesOf (l.eraseP p) := by
  induction l with
  | nil => simp at h
  | cons a l ih =>
    rw [List.find?_cons] at h
    cases hpa : p a with
    | true =>
      rw [hpa] at h
      cases h
      simp [List.eraseP_cons, hpa, sizesOf_cons]
    | false =>
      rw [hpa] at h
      simp [List.eraseP_cons, hpa, sizesOf_cons, ih h]
      omega

theorem eraseP_of_find?_none {p : Entry K V → Bool} {l : List (Entry K V)}
    (h : l.find? p = none) : l.eraseP p = l :=
  List.eraseP_of_forall_not (List.find?_eq_none.mp h)

theorem ejectList_spec (t : Nat) (es : List (Entry K V)) (cs : Nat)
    (h : cs = sizesOf es) :
    ∃ n, (ejectList t es cs).1 = es.drop n ∧
      (ejectList t es cs).2 = sizesOf (es.drop n) ∧
      (ejectList t es cs).2 ≤ t ∧
      ∀ m, m < n → t < sizesOf (es.drop m) := by
  induction es generalizing cs with
  | nil =>
    refine ⟨0, by simp [ejectList], by simp [ejectList, h], ?_, by omega⟩
    simp [ejectList, h, sizesOf_nil]
  | cons e rest ih =>
    subst h
    by_cases hle : sizesOf (e :: rest) ≤ t
    · exact ⟨0, by simp [ejectList, hle], by simp [ejectList, hle], by
        simp [ejectList, hle], by omega⟩
    · have hrec : sizesOf (e :: rest) - e.size = sizesOf rest := by
        rw [sizesOf_cons]; omega
      obtain ⟨n, h1, h2, h3, h4⟩ := ih (sizesOf (e :: rest) - e.size) hrec
      have hstep : ejectList t (e :: rest) (sizesOf (e :: rest)) =
          ejectList t rest (sizesOf (e :: rest) - e.size) := by
        simp [ejectList, hle]
      refine ⟨n + 1, ?_, ?_, ?_, ?_⟩
      · rw [hstep, List.drop_succ_cons]; exact h1
      · rw [hstep, List.drop_succ_cons]; exact h2
      · rw [hstep]; exact h3
      · intro m hm
        match m with
        | 0 => rw [List.drop_zero]; omega
        | m + 1 => rw [List.drop_succ_cons]; exact h4 m (by omega)

theorem ejectList_ledger (t : Nat) (es : List (Entry K V)) (cs : Nat)
    (h : cs = sizesOf es) :
    (ejectList t es cs).2 = sizesOf (ejectList t es cs).1 := by
  obtain ⟨n, h1, h2, _, _⟩ := ejectList_spec t es cs h
  rw [h1, h2]

theorem ejectList_le (t : Nat) (es : List (Entry K V)) (cs : Nat)
    (h : cs = sizesOf es) : (ejectList t es cs).2 ≤ t := by
  obtain ⟨n, _, _, h3, _⟩ := ejectList_spec t es cs h
  exact h3

theorem reallocate_foldl (c0 : Cache K V) (l : List (Entry K V)) :
    List.foldl (fun acc e => { acc with entries := acc.entries ++ [e] }) c0 l =
      { c0 with entries := c0.entries ++ l } := by
  induction l generalizing c0 with
  | nil => simp
  | cons e l ih => simp [ih]

theorem reallocate_with_eq (c : Cache K V) (n : Nat) :
    reallocate_with c n = { c with capacity := n } := by
  simp [reallocate_with, reallocate_foldl]

theorem nodup_eraseP_find?_none {l : List (Entry K V)} {k : K}
    (h : (l.map Entry.key).Nodup) :
    (l.eraseP (keyEq k)).find? (keyEq k) = none := by
  induction l with
  | nil => simp
  | cons a l ih =>
    simp only [List.map_cons, List.nodup_cons] at h
    obtain ⟨hnot, hnd⟩ := h
    by_cases hak : a.key = k
    · have : keyEq k a = true := by simp [keyEq, hak]
      rw [List.eraseP_cons, this]
      simp only [Bool.cond_true]
      rw [List.find?_eq_none]
      intro x hx
      simp only [keyEq, decide_eq_true_eq]
      intro hxk
      have hmem : a.key ∈ List.map Entry.key l := by
        rw [hak, ← hxk]; exact List.mem_map_of_mem Entry.key hx
      exact hnot hmem
    · have : keyEq k a = false := by simp [keyEq, hak]
      rw [List.eraseP_cons, this]
      simp only [Bool.cond_false]
      rw [List.find?_cons, this]
      exact ih hnd

theorem find?_keyEq_key {l : List (Entry K V)} {k : K} {e : Entry K V}
    (h : l.find? (keyEq k) = some e) : e.key = k := by
  have := List.find?_some h
  simpa [keyEq] using this

theorem find?_keyEq_mem {l : List (Entry K V)} {k : K} {e : Entry K V}
    (h : l.find? (keyEq k) = some e) : e ∈ l :=
  List.mem_of_find?_eq_some h

theorem removeKey_state (c : Cache K V) (k : K) (h : Ledger c) :
    Ledger (removeKey c k).2 ∧
    (removeKey c k).2.entries = c.entries.eraseP (keyEq k) ∧
    (removeKey c k).2.max_size = c.max_size ∧
    (removeKey c k).2.current_size ≤ c.current_size := by
  cases hf : findEntry c k with
  | none =>
    have he : c.entries.eraseP (keyEq k) = c.entries :=
      eraseP_of_find?_none hf
    simp [removeKey, hf, he, h]
  | some e =>
    have hsum := find?_some_sizesOf (p := keyEq k) hf
    refine ⟨?_, ?_, ?_, ?_⟩
    · simp only [removeKey, hf, Ledger] at *
      omega
    · simp [removeKey, hf]
    · simp [removeKey, hf]
    · simp only [removeKey, hf]
      omega

theorem eject_to_target_spec (c : Cache K V) (t : Nat) (h : Ledger c) :
    Ledger (eject_to_target c t) ∧
    (eject_to_target c t).current_size ≤ t ∧
    (eject_to_target c t).max_size = c.max_size ∧
    ∃ n, (eject_to_target c t).entries = c.entries.drop n ∧
      ∀ m, m < n → t < sizesOf (c.entries.drop m) := by
  obtain ⟨n, h1, h2, h3, h4⟩ := ejectList_spec t c.entries c.current_size h
  refine ⟨?_, ?_, rfl, n, ?_, h4⟩
  · simp only [Ledger, eject_to_target, h1, h2]
  · simpa [eject_to_target] using h3
  · simpa [eject_to_target] using h1

theorem ceiling_insert (c : Cache K V) (k : K) (v : V)
    (hld : Ledger c) (hcl : Ceiling c) :
    Ceiling (insert sizeK sizeV metaSize c k v).2 := by
  by_cases hbig : c.max_size < (Entry.new sizeK sizeV metaSize k v).size
  · simpa [insert, hbig] using hcl
  · obtain ⟨hld1, _, hmx1, _⟩ := removeKey_state c k hld
    obtain ⟨hld2, hle2, hmx2, _⟩ :=
      eject_to_target_spec (removeKey c k).2
        (c.max_size - (Entry.new sizeK sizeV metaSize k v).size) hld1
    have hcs : (insert sizeK sizeV metaSize c k v).2.current_size =
        (eject_to_target (removeKey c k).2
          (c.max_size - (Entry.new sizeK sizeV metaSize k v).size)).current_size +
        (Entry.new sizeK sizeV metaSize k v).size := by
      simp [insert, hbig]
    have hmx : (insert sizeK sizeV metaSize c k v).2.max_size = c.max_size := by
      simp [insert, hbig, hmx2, hmx1]
    simp only [Ceiling, hcs, hmx]
    omega

theorem ceiling_mutate (c : Cache K V) (k : K) (op : V → V × R)
    (hld : Ledger c) (hcl : Ceiling c) :
    Ceiling (mutate sizeV c k op).2 := by
  cases hf : findEntry c k with
  | none => simpa [mutate, hf] using hcl
  | some e =>
    have hsum := find?_some_sizesOf (p := keyEq k) hf
    by_cases hgrow : sizeV e.value < sizeV (op e.value).1
    · by_cases hbig :
        c.max_size < e.size + (sizeV (op e.value).1 - sizeV e.value)
      · have hstate : (mutate sizeV c k op).2 =
            ⟨c.entries.eraseP (keyEq k), c.current_size - e.size,
             c.max_size, c.capacity⟩ := by
          simp [mutate, hf, hgrow, hbig]
        simp only [Ceiling, hstate] at *
        omega
      · have hld1 : Ledger (K := K) (V := V)
            ⟨c.entries.eraseP (keyEq k) ++
              [⟨e.size + (sizeV (op e.value).1 - sizeV e.value), e.key,
                (op e.value).1⟩],
             c.current_size + (sizeV (op e.value).1 - sizeV e.value),
             c.max_size, c.capacity⟩ := by
          simp only [Ledger] at hld ⊢
          rw [sizesOf_append, sizesOf_cons]
          simp only [sizesOf_nil]
          omega
        obtain ⟨_, hle2, hmx2, _⟩ :=
          eject_to_target_spec _ c.max_size hld1
        have hstate : (mutate sizeV c k op).2 = eject_to_target
            ⟨c.entries.eraseP (keyEq k) ++
              [⟨e.size + (sizeV (op e.value).1 - sizeV e.value), e.key,
                (op e.value).1⟩],
             c.current_size + (sizeV (op e.value).1 - sizeV e.value),
             c.max_size, c.capacity⟩ c.max_size := by
          simp [mutate, hf, hgrow, hbig]
        simp only [Ceiling, hstate, hmx2] at *
        exact hle2
    · have hstate : (mutate sizeV c k op).2 =
          ⟨c.entries.eraseP (keyEq k) ++
            [⟨e.size - (sizeV e.value - sizeV (op e.value).1), e.key,
              (op e.value).1⟩],
           c.current_size - (sizeV e.value - sizeV (op e.value).1),
           c.max_size, c.capacity⟩ := by
        simp [mutate, hf, hgrow]
      simp only [Ceiling, hstate] at *
      omega

theorem ceiling_set_max_size (c : Cache K V) (m : Nat) (hld : Ledger c) :
    Ceiling (set_max_size c m) := by
  by_cases hlt : m < c.current_size
  · obtain ⟨_, hle, _, _⟩ := eject_to_target_spec c m hld
    simp only [set_max_size, hlt, if_true, Ceiling] at *
    exact hle
  · simp only [set_max_size, hlt, if_false, Ceiling]
    omega

/-- C1: after every completed public operation (insert, remove, remove_lru,
remove_mru, touch, get, mutate, set_max_size, clear, reserve, shrink_to) on
a cache whose ledger is sound and within the ceiling, the resulting state
satisfies `current_size ≤ max_size`. -/
theorem ceiling_after_public_ops (c : Cache K V) (k : K) (v : V)
    (op : V → V × R) (m addl mcap : Nat)
    (hld : Ledger c) (hcl : Ceiling c) :
    Ceiling (insert sizeK sizeV metaSize c k v).2 ∧
    Ceiling (removeKey c k).2 ∧
    Ceiling (remove_lru c).2 ∧
    Ceiling (remove_mru c).2 ∧
    Ceiling (touch c k) ∧
    Ceiling (get c k).2 ∧
    Ceiling (mutate sizeV c k op).2 ∧
    Ceiling (set_max_size c m) ∧
    Ceiling (clear c) ∧
    Ceiling (reserve c addl) ∧
    Ceiling (shrink_to c mcap) := by
  refine ⟨ceiling_insert sizeK sizeV metaSize c k v hld hcl, ?_, ?_, ?_, ?_, ?_,
    ceiling_mutate sizeV c k op hld hcl, ceiling_set_max_size c m hld, ?_, ?_, ?_⟩
  · obtain ⟨_, _, hmx, hle⟩ := removeKey_state c k hld
    simp only [Ceiling] at *
    omega
  · cases hes : c.entries with
    | nil => simpa [remove_lru, hes] using hcl
    | cons e rest =>
      simp only [remove_lru, hes, Ceiling] at *
      omega
  · cases hes : c.entries.getLast? with
    | none => simpa [remove_mru, hes] using hcl
    | some e =>
      simp only [remove_mru, hes, Ceiling] at *
      omega
  · cases hf : findEntry c k with
    | none => simpa [touch, hf] using hcl
    | some e => simpa [touch, hf, Ceiling] using hcl
  · cases hf : findEntry c k with
    | none => simpa [get, hf] using hcl
    | some e => simpa [get, hf, Ceiling] using hcl
  · simp [clear, Ceiling]
  · by_cases hcap : c.capacity < len c + addl
    · simpa [reserve, hcap, reallocate_with_eq, Ceiling] using hcl
    · simpa [reserve, hcap] using hcl
  · by_cases hcap : max (len c) mcap < c.capacity
    · simpa [shrink_to, hcap, reallocate_with_eq, Ceiling] using hcl
    · simpa [shrink_to, hcap] using hcl

/-- Closed instance of the ceiling-preservation theorem at a concrete
cache. -/
theorem ceiling_after_public_ops_witness :
    Ceiling (insert (fun n : Nat => n) (fun n : Nat => n) 2
      ⟨[⟨5, 1, 2⟩], 5, 10, 4⟩ 3 4).2 ∧
    Ceiling (removeKey (⟨[⟨5, 1, 2⟩], 5, 10, 4⟩ : Cache Nat Nat) 3).2 ∧
    Ceiling (remove_lru (⟨[⟨5, 1, 2⟩], 5, 10, 4⟩ : Cache Nat Nat)).2 ∧
    Ceiling (remove_mru (⟨[⟨5, 1, 2⟩], 5, 10, 4⟩ : Cache Nat Nat)).2 ∧
    Ceiling (touch (⟨[⟨5, 1, 2⟩], 5, 10, 4⟩ : Cache Nat Nat) 3) ∧
    Ceiling (get (⟨[⟨5, 1, 2⟩], 5, 10, 4⟩ : Cache Nat Nat) 3).2 ∧
    Ceiling (mutate (fun n : Nat => n) (⟨[⟨5, 1, 2⟩], 5, 10, 4⟩ : Cache Nat Nat)
      3 (fun n : Nat => (n + 1, n))).2 ∧
    Ceiling (set_max_size (⟨[⟨5, 1, 2⟩], 5, 10, 4⟩ : Cache Nat Nat) 7) ∧
    Ceiling (clear (⟨[⟨5, 1, 2⟩], 5, 10, 4⟩ : Cache Nat Nat)) ∧
    Ceiling (reserve (⟨[⟨5, 1, 2⟩], 5, 10, 4⟩ : Cache Nat Nat) 6) ∧
    Ceiling (shrink_to (⟨[⟨5, 1, 2⟩], 5, 10, 4⟩ : Cache Nat Nat) 1) :=
  ceiling_after_public_ops (fun n : Nat => n) (fun n : Nat => n) 2
    ⟨[⟨5, 1, 2⟩], 5, 10, 4⟩ 3 4 (fun n : Nat => (n + 1, n)) 7 6 1
    (by simp [Ledger, sizesOf]) (by simp [Ceiling])

/-- C3: for every cache and every pair (key, value) whose computed entry
size exceeds `max_size`, `insert` fails with `EntryTooLarge` carrying the
provided key and value unmodified together with the projected entry size
and the ceiling, and the cache state is unchanged. -/
theorem insert_too_large (c : Cache K V) (k : K) (v : V)
    (h : c.max_size < sizeK k + sizeV v + metaSize) :
    insert sizeK sizeV metaSize c k v =
      (.error (.entryTooLarge k v (sizeK k + sizeV v + metaSize) c.max_size),
       c) := by
  simp [insert, Entry.new, h]

/-- Closed instance of the too-large-insert theorem. -/
theorem insert_too_large_witness :
    insert (fun n : Nat => n) (fun n : Nat => n) 2
      (⟨[], 0, 1, 0⟩ : Cache Nat Nat) 3 4 =
      (.error (.entryTooLarge 3 4 9 1), ⟨[], 0, 1, 0⟩) :=
  insert_too_large (fun n : Nat => n) (fun n : Nat => n) 2
    ⟨[], 0, 1, 0⟩ 3 4 (by decide)

/-- C6: the rehash/reallocation path taken by `reserve`, `try_reserve`,
`shrink_to` and `shrink_to_fit` leaves `current_size`, `max_size` and the
recency-ordered entry list unchanged: salvaging the entries tail-to-head
and re-inserting each at the head (the `reallocate_with` fold) reproduces
the original LRU-to-MRU order. -/
theorem reserve_eq (c : Cache K V) (addl : Nat) :
    reserve c addl = if c.capacity < len c + addl
      then { c with capacity := len c + addl } else c := by
  simp only [reserve]
  split <;> simp [reallocate_with_eq]

theorem try_reserve_eq (c : Cache K V) (addl : Nat) :
    try_reserve c addl = if c.capacity < len c + addl
      then { c with capacity := len c + addl } else c := by
  simp only [try_reserve]
  split <;> simp [reallocate_with_eq]

theorem shrink_to_eq (c : Cache K V) (mcap : Nat) :
    shrink_to c mcap = if max (len c) mcap < c.capacity
      then { c with capacity := max (len c) mcap } else c := by
  simp only [shrink_to]
  split <;> simp [reallocate_with_eq]

theorem rehash_preserves (c : Cache K V) (newCap addl mcap : Nat) :
    (reallocate_with c newCap).entries = c.entries ∧
    (reallocate_with c newCap).current_size = c.current_size ∧
    (reallocate_with c newCap).max_size = c.max_size ∧
    (reserve c addl).entries = c.entries ∧
    (reserve c addl).current_size = c.current_size ∧
    (reserve c addl).max_size = c.max_size ∧
    (try_reserve c addl).entries = c.entries ∧
    (try_reserve c addl).current_size = c.current_size ∧
    (try_reserve c addl).max_size = c.max_size ∧
    (shrink_to c mcap).entries = c.entries ∧
    (shrink_to c mcap).current_size = c.current_size ∧
    (shrink_to c mcap).max_size = c.max_size ∧
    (shrink_to_fit c).entries = c.entries ∧
    (shrink_to_fit c).current_size = c.current_size ∧
    (shrink_to_fit c).max_size = c.max_size := by
  refine ⟨?_, ?_, ?_, ?_, ?_, ?_, ?_, ?_, ?_, ?_, ?_, ?_, ?_, ?_, ?_⟩ <;>
    first
      | simp [reallocate_with_eq]
      | (rw [reserve_eq]; split <;> rfl)
      | (rw [try_reserve_eq]; split <;> rfl)
      | (rw [shrink_to_fit, shrink_to_eq]; split <;> rfl)
      | (rw [shrink_to_eq]; split <;> rfl)

/-- C7: on a non-empty cache, `get_lru` returns the key and value of the
entry that was the tail at the moment of the call and moves that entry to
the head; on an empty cache it returns `none` and changes nothing. -/
theorem get_lru_spec (c : Cache K V) :
    (c.entries = [] → get_lru c = (none, c)) ∧
    ∀ e rest, c.entries = e :: rest →
      get_lru c = (some (e.key, e.value), { c with entries := rest ++ [e] }) := by
  constructor
  · intro h
    simp [get_lru, h]
  · intro e rest h
    simp [get_lru, h]

/-- Closed instance of the `get_lru` theorem: the empty case and a
two-entry case where the tail is returned and becomes the head. -/
theorem get_lru_spec_witness :
    get_lru (⟨[], 0, 5, 0⟩ : Cache Nat Nat) = (none, ⟨[], 0, 5, 0⟩) ∧
    get_lru (⟨[⟨3, 1, 2⟩, ⟨4, 5, 6⟩], 7, 10, 0⟩ : Cache Nat Nat) =
      (some (1, 2), ⟨[⟨4, 5, 6⟩, ⟨3, 1, 2⟩], 7, 10, 0⟩) :=
  ⟨(get_lru_spec ⟨[], 0, 5, 0⟩).1 rfl,
   (get_lru_spec ⟨[⟨3, 1, 2⟩, ⟨4, 5, 6⟩], 7, 10, 0⟩).2 ⟨3, 1, 2⟩ [⟨4, 5, 6⟩] rfl⟩

/-- C2: with the ledger sound and the computed entry size at most
`max_size`, `insert(key, value)` returns the prior value for the key if
any, evicts only from the tail (a `drop` of the deduplicated list, each
skipped prefix still exceeding the eviction target
`max_size − new_entry_size`), splices the new entry at the head (it is the
last, most-recently-used element), keeps the ledger equal to the sum of
live entry sizes, and lands within the ceiling. -/
theorem insert_spec (c : Cache K V) (k : K) (v : V)
    (hld : Ledger c)
    (hfit : (Entry.new sizeK sizeV metaSize k v).size ≤ c.max_size) :
    (insert sizeK sizeV metaSize c k v).1 =
      .ok ((findEntry c k).map Entry.value) ∧
    ∃ n, (insert sizeK sizeV metaSize c k v).2.entries =
        (c.entries.eraseP (keyEq k)).drop n ++
          [Entry.new sizeK sizeV metaSize k v] ∧
      (∀ m, m < n →
        c.max_size - (Entry.new sizeK sizeV metaSize k v).size <
          sizesOf ((c.entries.eraseP (keyEq k)).drop m)) ∧
      Ledger (insert sizeK sizeV metaSize c k v).2 ∧
      (insert sizeK sizeV metaSize c k v).2.current_size ≤ c.max_size ∧
      (insert sizeK sizeV metaSize c k v).2.max_size = c.max_size := by
  have hbig : ¬ c.max_size < (Entry.new sizeK sizeV metaSize k v).size := by
    omega
  obtain ⟨hld1, hent1, hmx1, _⟩ := removeKey_state c k hld
  obtain ⟨hld2, hle2, hmx2, n, hent2, hmin2⟩ :=
    eject_to_target_spec (removeKey c k).2
      (c.max_size - (Entry.new sizeK sizeV metaSize k v).size) hld1
  constructor
  · cases hf : findEntry c k with
    | none => simp [insert, hbig, removeKey, hf]
    | some e => simp [insert, hbig, removeKey, hf]
  · refine ⟨n, ?_, ?_, ?_, ?_, ?_⟩
    · have : (insert sizeK sizeV metaSize c k v).2.entries =
          (eject_to_target (removeKey c k).2
            (c.max_size - (Entry.new sizeK sizeV metaSize k v).size)).entries ++
          [Entry.new sizeK sizeV metaSize k v] := by
        simp [insert, hbig]
      rw [this, hent2, hent1]
    · intro m hm
      have := hmin2 m hm
      rwa [hent1] at this
    · have hcs : (insert sizeK sizeV metaSize c k v).2.current_size =
          (eject_to_target (removeKey c k).2
            (c.max_size - (Entry.new sizeK sizeV metaSize k v).size)).current_size +
          (Entry.new sizeK sizeV metaSize k v).size := by
        simp [insert, hbig]
      have hent : (insert sizeK sizeV metaSize c k v).2.entries =
          (eject_to_target (removeKey c k).2
            (c.max_size - (Entry.new sizeK sizeV metaSize k v).size)).entries ++
          [Entry.new sizeK sizeV metaSize k v] := by
        simp [insert, hbig]
      simp only [Ledger] at hld2 ⊢
      rw [hcs, hent, sizesOf_append, sizesOf_cons, sizesOf_nil, hld2]
      omega
    · have hcs : (insert sizeK sizeV metaSize c k v).2.current_size =
          (eject_to_target (removeKey c k).2
            (c.max_size - (Entry.new sizeK sizeV metaSize k v).size)).current_size +
          (Entry.new sizeK sizeV metaSize k v).size := by
        simp [insert, hbig]
      omega
    · simp [insert, hbig, hmx2, hmx1]

/-- Closed instance of the insert-functional-correctness theorem on a
two-entry cache where the insertion overwrites a key and forces an
eviction. -/
theorem insert_spec_witness :
    (insert (fun n : Nat => n) (fun n : Nat => n) 1
      (⟨[⟨5, 1, 3⟩, ⟨6, 2, 3⟩], 11, 12, 0⟩ : Cache Nat Nat) 2 8).1 =
      .ok ((findEntry (⟨[⟨5, 1, 3⟩, ⟨6, 2, 3⟩], 11, 12, 0⟩ : Cache Nat Nat)
        2).map Entry.value) ∧
    ∃ n, (insert (fun n : Nat => n) (fun n : Nat => n) 1
        (⟨[⟨5, 1, 3⟩, ⟨6, 2, 3⟩], 11, 12, 0⟩ : Cache Nat Nat) 2 8).2.entries =
        ((⟨[⟨5, 1, 3⟩, ⟨6, 2, 3⟩], 11, 12, 0⟩ : Cache Nat Nat).entries.eraseP
          (keyEq 2)).drop n ++ [Entry.new (fun n : Nat => n) (fun n : Nat => n) 1 2 8] ∧
      (∀ m, m < n → 12 - (Entry.new (fun n : Nat => n) (fun n : Nat => n) 1 2 8).size <
        sizesOf (((⟨[⟨5, 1, 3⟩, ⟨6, 2, 3⟩], 11, 12, 0⟩ : Cache Nat Nat).entries.eraseP
          (keyEq 2)).drop m)) ∧
      Ledger (insert (fun n : Nat => n) (fun n : Nat => n) 1
        (⟨[⟨5, 1, 3⟩, ⟨6, 2, 3⟩], 11, 12, 0⟩ : Cache Nat Nat) 2 8).2 ∧
      (insert (fun n : Nat => n) (fun n : Nat => n) 1
        (⟨[⟨5, 1, 3⟩, ⟨6, 2, 3⟩], 11, 12, 0⟩ : Cache Nat Nat) 2 8).2.current_size ≤ 12 ∧
      (insert (fun n : Nat => n) (fun n : Nat => n) 1
        (⟨[⟨5, 1, 3⟩, ⟨6, 2, 3⟩], 11, 12, 0⟩ : Cache Nat Nat) 2 8).2.max_size = 12 :=
  insert_spec (fun n : Nat => n) (fun n : Nat => n) 1
    ⟨[⟨5, 1, 3⟩, ⟨6, 2, 3⟩], 11, 12, 0⟩ 2 8
    (by simp [Ledger, sizesOf]) (by simp [Entry.new])

/-- C4: on a well-formed cache, a mutation that makes the projected entry
size exceed `max_size` removes the entry, fails with `EntryTooLarge`
carrying the projected size and the ceiling, leaves `contains k` false,
and leaves the ledger consistent with the removal. -/
theorem mutate_too_large (c : Cache K V) (k : K) (op : V → V × R)
    (e : Entry K V)
    (hwf : WF sizeK sizeV metaSize c)
    (hfind : findEntry c k = some e)
    (hgrow : sizeV e.value < sizeV (op e.value).1)
    (hbig : c.max_size < e.size + (sizeV (op e.value).1 - sizeV e.value)) :
    (mutate sizeV c k op).1 = .error (.entryTooLarge e.key (op e.value).1
      (e.size + (sizeV (op e.value).1 - sizeV e.value)) c.max_size) ∧
    contains (mutate sizeV c k op).2 k = false ∧
    (mutate sizeV c k op).2.entries = c.entries.eraseP (keyEq k) ∧
    (mutate sizeV c k op).2.current_size = c.current_size - e.size ∧
    Ledger (mutate sizeV c k op).2 ∧
    (mutate sizeV c k op).2.max_size = c.max_size := by
  obtain ⟨hld, hsz, hnd⟩ := hwf
  have hsum := find?_some_sizesOf (p := keyEq k) hfind
  have hstate : (mutate sizeV c k op).2 =
      ⟨c.entries.eraseP (keyEq k), c.current_size - e.size,
       c.max_size, c.capacity⟩ := by
    simp [mutate, hfind, hgrow, hbig]
  refine ⟨by simp [mutate, hfind, hgrow, hbig], ?_, by rw [hstate], by rw [hstate],
    ?_, by rw [hstate]⟩
  · rw [hstate]
    simp only [contains, findEntry]
    rw [nodup_eraseP_find?_none hnd]
    rfl
  · simp only [Ledger, hstate] at *
    omega

/-- Closed instance of the mutate-overflow theorem: mutating the single
entry of a tight cache so its projected size exceeds the ceiling. -/
theorem mutate_too_large_witness :
    (mutate (fun n : Nat => n) (⟨[⟨4, 1, 2⟩], 4, 5, 0⟩ : Cache Nat Nat)
      1 (fun v => (v + 10, v))).1 = .error (.entryTooLarge 1 12 14 5) ∧
    contains (mutate (fun n : Nat => n)
      (⟨[⟨4, 1, 2⟩], 4, 5, 0⟩ : Cache Nat Nat) 1 (fun v => (v + 10, v))).2
      1 = false ∧
    (mutate (fun n : Nat => n) (⟨[⟨4, 1, 2⟩], 4, 5, 0⟩ : Cache Nat Nat)
      1 (fun v => (v + 10, v))).2.entries = [] ∧
    (mutate (fun n : Nat => n) (⟨[⟨4, 1, 2⟩], 4, 5, 0⟩ : Cache Nat Nat)
      1 (fun v => (v + 10, v))).2.current_size = 0 ∧
    Ledger (mutate (fun n : Nat => n)
      (⟨[⟨4, 1, 2⟩], 4, 5, 0⟩ : Cache Nat Nat) 1 (fun v => (v + 10, v))).2 ∧
    (mutate (fun n : Nat => n) (⟨[⟨4, 1, 2⟩], 4, 5, 0⟩ : Cache Nat Nat)
      1 (fun v => (v + 10, v))).2.max_size = 5 :=
  mutate_too_large (fun _ : Nat => 1) (fun n : Nat => n) 1
    ⟨[⟨4, 1, 2⟩], 4, 5, 0⟩ 1 (fun v => (v + 10, v)) ⟨4, 1, 2⟩
    ⟨rfl, by decide, by decide⟩ rfl (by decide) (by decide)

/-- C10: when `mutate` fails with `EntryTooLarge`, the value in the error
payload is the value as already mutated by the operation closure (the
closure's effect is not rolled back), and the key in the payload is the
entry's original key. -/
theorem mutate_error_carries_mutated_value (c : Cache K V) (k : K)
    (op : V → V × R) (e : Entry K V)
    (hfind : findEntry c k = some e)
    (hgrow : sizeV e.value < sizeV (op e.value).1)
    (hbig : c.max_size < e.size + (sizeV (op e.value).1 - sizeV e.value)) :
    (mutate sizeV c k op).1 = .error (.entryTooLarge e.key (op e.value).1
      (e.size + (sizeV (op e.value).1 - sizeV e.value)) c.max_size) := by
  simp [mutate, hfind, hgrow, hbig]

/-- Closed instance of the error-payload theorem: the payload value 12 is
the mutated value (2 + 10), not the stored value 2, and the payload key is
the entry's key. -/
theorem mutate_error_carries_mutated_value_witness :
    (mutate (fun n : Nat => n) (⟨[⟨4, 7, 2⟩], 4, 5, 0⟩ : Cache Nat Nat)
      7 (fun v => (v + 10, v))).1 = .error (.entryTooLarge 7 12 14 5) :=
  mutate_error_carries_mutated_value (fun n : Nat => n)
    ⟨[⟨4, 7, 2⟩], 4, 5, 0⟩ 7 (fun v => (v + 10, v)) ⟨4, 7, 2⟩
    rfl (by decide) (by decide)

/-- C8: `mutate(k, op)` consults the closure exactly once on a hit — its
outcome depends on `op` only through the single application `op v` to the
stored value, whose result is what is returned (or what the error payload
carries) — and on a miss the closure is never consulted and the result is
absent with the cache unchanged. -/
theorem mutate_calls_op_once (c : Cache K V) (k : K) :
    (findEntry c k = none →
      ∀ op : V → V × R, mutate sizeV c k op = (.ok none, c)) ∧
    ∀ e : Entry K V, findEntry c k = some e →
      (∀ op1 op2 : V → V × R, op1 e.value = op2 e.value →
        mutate sizeV c k op1 = mutate sizeV c k op2) ∧
      (∀ op : V → V × R,
        (mutate sizeV c k op).1 = .ok (some (op e.value).2) ∨
        (mutate sizeV c k op).1 = .error (.entryTooLarge e.key (op e.value).1
          (e.size + (sizeV (op e.value).1 - sizeV e.value)) c.max_size)) := by
  constructor
  · intro hf op
    simp [mutate, hf]
  · intro e hfind
    constructor
    · intro op1 op2 hsame
      simp only [mutate, hfind, hsame]
    · intro op
      by_cases hgrow : sizeV e.value < sizeV (op e.value).1
      · by_cases hbig :
          c.max_size < e.size + (sizeV (op e.value).1 - sizeV e.value)
        · right
          simp [mutate, hfind, hgrow, hbig]
        · left
          simp [mutate, hfind, hgrow, hbig]
      · left
        simp [mutate, hfind, hgrow]

/-- Closed instance of the closure-call theorem: a miss leaves the cache
unchanged with an absent result, and a hit returns the single application
of the closure to the stored value. -/
theorem mutate_calls_op_once_witness :
    mutate (fun n : Nat => n) (⟨[], 0, 5, 0⟩ : Cache Nat Nat) 1
      (fun v => (v + 1, v)) = (.ok none, ⟨[], 0, 5, 0⟩) ∧
    ((mutate (fun n : Nat => n) (⟨[⟨4, 1, 2⟩], 4, 9, 0⟩ : Cache Nat Nat) 1
      (fun v => (v + 1, v))).1 = .ok (some 2) ∨
     (mutate (fun n : Nat => n) (⟨[⟨4, 1, 2⟩], 4, 9, 0⟩ : Cache Nat Nat) 1
      (fun v => (v + 1, v))).1 = .error (.entryTooLarge 1 3 5 9)) :=
  ⟨(mutate_calls_op_once (fun n : Nat => n) ⟨[], 0, 5, 0⟩ 1).1 rfl
    (fun v => (v + 1, v)),
   ((mutate_calls_op_once (fun n : Nat => n) ⟨[⟨4, 1, 2⟩], 4, 9, 0⟩ 1).2
    ⟨4, 1, 2⟩ (by rfl)).2 (fun v => (v + 1, v))⟩

/-- C5: on a well-formed cache within its ceiling, a mutation whose
projected entry size stays within `max_size` returns the operation's
result, adjusts the entry's size to the projected size (debit when the new
value size is not larger, credit when it is), marks the entry as
most-recently-used (it is the last element), evicts only from the tail and
only until the ledger is within the ceiling (every skipped prefix together
with the mutated entry still exceeds the ceiling), never evicting the
mutated entry itself, keeps the ledger sound and within the ceiling; in
the debit case nothing is evicted and `current_size` drops by exactly the
value-size difference, and in the credit case where the credited ledger
already fits nothing is evicted and `current_size` rises by exactly the
value-size difference. -/
theorem mutate_within_ceiling (c : Cache K V) (k : K) (op : V → V × R)
    (e : Entry K V)
    (hwf : WF sizeK sizeV metaSize c)
    (hcl : Ceiling c)
    (hfind : findEntry c k = some e)
    (hfit : (if sizeV e.value < sizeV (op e.value).1
        then e.size + (sizeV (op e.value).1 - sizeV e.value)
        else e.size - (sizeV e.value - sizeV (op e.value).1)) ≤ c.max_size) :
    (mutate sizeV c k op).1 = .ok (some (op e.value).2) ∧
    (∃ n, (mutate sizeV c k op).2.entries =
      (c.entries.eraseP (keyEq k)).drop n ++
        [⟨if sizeV e.value < sizeV (op e.value).1
            then e.size + (sizeV (op e.value).1 - sizeV e.value)
            else e.size - (sizeV e.value - sizeV (op e.value).1),
          e.key, (op e.value).1⟩] ∧
      ∀ m, m < n → c.max_size <
        sizesOf ((c.entries.eraseP (keyEq k)).drop m ++
          [⟨if sizeV e.value < sizeV (op e.value).1
              then e.size + (sizeV (op e.value).1 - sizeV e.value)
              else e.size - (sizeV e.value - sizeV (op e.value).1),
            e.key, (op e.value).1⟩])) ∧
    Ledger (mutate sizeV c k op).2 ∧
    (mutate sizeV c k op).2.current_size ≤ c.max_size ∧
    (mutate sizeV c k op).2.max_size = c.max_size ∧
    (¬ sizeV e.value < sizeV (op e.value).1 →
      (mutate sizeV c k op).2.entries =
        c.entries.eraseP (keyEq k) ++
          [⟨e.size - (sizeV e.value - sizeV (op e.value).1), e.key,
            (op e.value).1⟩] ∧
      (mutate sizeV c k op).2.current_size =
        c.current_size - (sizeV e.value - sizeV (op e.value).1)) ∧
    (sizeV e.value < sizeV (op e.value).1 →
      sizesOf (c.entries.eraseP (keyEq k)) +
        (e.size + (sizeV (op e.value).1 - sizeV e.value)) ≤ c.max_size →
      (mutate sizeV c k op).2.entries =
        c.entries.eraseP (keyEq k) ++
          [⟨e.size + (sizeV (op e.value).1 - sizeV e.value), e.key,
            (op e.value).1⟩] ∧
      (mutate sizeV c k op).2.current_size =
        c.current_size + (sizeV (op e.value).1 - sizeV e.value)) := by
  obtain ⟨hld, hsz, hnd⟩ := hwf
  have hsum := find?_some_sizesOf (p := keyEq k) hfind
  have hszE := hsz e (find?_keyEq_mem hfind)
  by_cases hgrow : sizeV e.value < sizeV (op e.value).1
  · rw [if_pos hgrow] at hfit
    have hbig : ¬ c.max_size <
        e.size + (sizeV (op e.value).1 - sizeV e.value) := by omega
    have hstate : (mutate sizeV c k op).2 = eject_to_target
        ⟨c.entries.eraseP (keyEq k) ++
          [⟨e.size + (sizeV (op e.value).1 - sizeV e.value), e.key,
            (op e.value).1⟩],
         c.current_size + (sizeV (op e.value).1 - sizeV e.value),
         c.max_size, c.capacity⟩ c.max_size := by
      simp [mutate, hfind, hgrow, hbig]
    have hld1 : Ledger (K := K) (V := V)
        ⟨c.entries.eraseP (keyEq k) ++
          [⟨e.size + (sizeV (op e.value).1 - sizeV e.value), e.key,
            (op e.value).1⟩],
         c.current_size + (sizeV (op e.value).1 - sizeV e.value),
         c.max_size, c.capacity⟩ := by
      simp only [Ledger] at hld ⊢
      rw [sizesOf_append, sizesOf_cons]
      simp only [sizesOf_nil]
      omega
    obtain ⟨hld2, hle2, hmx2, n, hent2, hmin2⟩ :=
      eject_to_target_spec _ c.max_size hld1
    have hent2' : (eject_to_target
        ⟨c.entries.eraseP (keyEq k) ++
          [⟨e.size + (sizeV (op e.value).1 - sizeV e.value), e.key,
            (op e.value).1⟩],
         c.current_size + (sizeV (op e.value).1 - sizeV e.value),
         c.max_size, c.capacity⟩ c.max_size).entries =
        (c.entries.eraseP (keyEq k) ++
          [(⟨e.size + (sizeV (op e.value).1 - sizeV e.value), e.key,
            (op e.value).1⟩ : Entry K V)]).drop n := hent2
    have hlen : n ≤ (c.entries.eraseP (keyEq k)).length := by
      by_contra hgt
      push_neg at hgt
      have hm : c.max_size < sizesOf
          ((c.entries.eraseP (keyEq k) ++
            [(⟨e.size + (sizeV (op e.value).1 - sizeV e.value), e.key,
              (op e.value).1⟩ : Entry K V)]).drop
            (c.entries.eraseP (keyEq k)).length) :=
        hmin2 (c.entries.eraseP (keyEq k)).length hgt
      rw [List.drop_left, sizesOf_cons, sizesOf_nil] at hm
      have hm2 : c.max_size <
          e.size + (sizeV (op e.value).1 - sizeV e.value) + 0 := hm
      omega
    refine ⟨by simp [mutate, hfind, hgrow, hbig], ?_, ?_, ?_, ?_, ?_, ?_⟩
    · refine ⟨n, ?_, ?_⟩
      · rw [if_pos hgrow, hstate, hent2', List.drop_append_of_le_length hlen]
      · intro m hm
        rw [if_pos hgrow]
        have hm' : c.max_size < sizesOf
            ((c.entries.eraseP (keyEq k) ++
              [(⟨e.size + (sizeV (op e.value).1 - sizeV e.value), e.key,
                (op e.value).1⟩ : Entry K V)]).drop m) := hmin2 m hm
        rwa [List.drop_append_of_le_length
          (le_of_lt (lt_of_lt_of_le hm hlen))] at hm'
    · rw [hstate]; exact hld2
    · rw [hstate]; exact hle2
    · rw [hstate]; exact hmx2
    · intro hcon; exact absurd hgrow hcon
    · intro _ hfits
      have hn0 : n = 0 := by
        by_contra hne
        have h0 : (0 : Nat) < n := Nat.pos_of_ne_zero hne
        have hm' : c.max_size < sizesOf
            ((c.entries.eraseP (keyEq k) ++
              [(⟨e.size + (sizeV (op e.value).1 - sizeV e.value), e.key,
                (op e.value).1⟩ : Entry K V)]).drop 0) := hmin2 0 h0
        rw [List.drop_zero, sizesOf_append, sizesOf_cons] at hm'
        simp only [sizesOf_nil] at hm'
        omega
      have hent' : (mutate sizeV c k op).2.entries =
          c.entries.eraseP (keyEq k) ++
            [⟨e.size + (sizeV (op e.value).1 - sizeV e.value), e.key,
              (op e.value).1⟩] := by
        rw [hstate, hent2', hn0, List.drop_zero]
      refine ⟨hent', ?_⟩
      have hcs : (mutate sizeV c k op).2.current_size =
          sizesOf (mutate sizeV c k op).2.entries := by
        rw [hstate]; exact hld2
      rw [hcs, hent', sizesOf_append, sizesOf_cons]
      simp only [sizesOf_nil]
      simp only [Ledger] at hld
      omega
  · have hstate : (mutate sizeV c k op).2 =
        ⟨c.entries.eraseP (keyEq k) ++
          [⟨e.size - (sizeV e.value - sizeV (op e.value).1), e.key,
            (op e.value).1⟩],
         c.current_size - (sizeV e.value - sizeV (op e.value).1),
         c.max_size, c.capacity⟩ := by
      simp [mutate, hfind, hgrow]
    refine ⟨by simp [mutate, hfind, hgrow], ⟨0, ?_, ?_⟩, ?_, ?_, ?_, ?_, ?_⟩
    · rw [if_neg hgrow, hstate, List.drop_zero]
    · intro m hm
      exact absurd hm (Nat.not_lt_zero m)
    · simp only [Ledger, hstate, sizesOf_append, sizesOf_cons, sizesOf_nil]
      simp only [Ledger] at hld
      omega
    · rw [hstate]
      simp only [Ceiling] at hcl
      simp only []
      omega
    · rw [hstate]
    · intro _
      exact ⟨by rw [hstate], by rw [hstate]⟩
    · intro hgrow2 _
      exact absurd hgrow2 hgrow

/-- Closed instance of the mutate-within-ceiling theorem: a growing
mutation on a two-entry cache with a tight ceiling that forces the other
entry to be evicted while the mutated entry survives as the head, plus the
no-eviction credit clause exercised on the same cache under a loose
ceiling, where `current_size` rises by exactly the value-size
difference. -/
theorem mutate_within_ceiling_witness :
    ((mutate (fun n : Nat => n)
      (⟨[⟨4, 10, 2⟩, ⟨3, 1, 1⟩], 7, 8, 0⟩ : Cache Nat Nat) 1
      (fun v => (v + 4, v))).1 = .ok (some 1) ∧
    (∃ n, (mutate (fun n : Nat => n)
        (⟨[⟨4, 10, 2⟩, ⟨3, 1, 1⟩], 7, 8, 0⟩ : Cache Nat Nat) 1
        (fun v => (v + 4, v))).2.entries =
      ([⟨4, 10, 2⟩] : List (Entry Nat Nat)).drop n ++ [⟨7, 1, 5⟩] ∧
      ∀ m, m < n → 8 < sizesOf
        (([⟨4, 10, 2⟩] : List (Entry Nat Nat)).drop m ++ [⟨7, 1, 5⟩])) ∧
    Ledger (mutate (fun n : Nat => n)
      (⟨[⟨4, 10, 2⟩, ⟨3, 1, 1⟩], 7, 8, 0⟩ : Cache Nat Nat) 1
      (fun v => (v + 4, v))).2 ∧
    (mutate (fun n : Nat => n)
      (⟨[⟨4, 10, 2⟩, ⟨3, 1, 1⟩], 7, 8, 0⟩ : Cache Nat Nat) 1
      (fun v => (v + 4, v))).2.current_size ≤ 8 ∧
    (mutate (fun n : Nat => n)
      (⟨[⟨4, 10, 2⟩, ⟨3, 1, 1⟩], 7, 8, 0⟩ : Cache Nat Nat) 1
      (fun v => (v + 4, v))).2.max_size = 8 ∧
    (¬ (1 : Nat) < 5 →
      (mutate (fun n : Nat => n)
        (⟨[⟨4, 10, 2⟩, ⟨3, 1, 1⟩], 7, 8, 0⟩ : Cache Nat Nat) 1
        (fun v => (v + 4, v))).2.entries =
        ([⟨4, 10, 2⟩] : List (Entry Nat Nat)) ++ [⟨3 - (1 - 5), 1, 5⟩] ∧
      (mutate (fun n : Nat => n)
        (⟨[⟨4, 10, 2⟩, ⟨3, 1, 1⟩], 7, 8, 0⟩ : Cache Nat Nat) 1
        (fun v => (v + 4, v))).2.current_size = 7 - ((1 : Nat) - 5)) ∧
    ((1 : Nat) < 5 →
      sizesOf ([⟨4, 10, 2⟩] : List (Entry Nat Nat)) + 7 ≤ 8 →
      (mutate (fun n : Nat => n)
        (⟨[⟨4, 10, 2⟩, ⟨3, 1, 1⟩], 7, 8, 0⟩ : Cache Nat Nat) 1
        (fun v => (v + 4, v))).2.entries =
        ([⟨4, 10, 2⟩] : List (Entry Nat Nat)) ++ [⟨7, 1, 5⟩] ∧
      (mutate (fun n : Nat => n)
        (⟨[⟨4, 10, 2⟩, ⟨3, 1, 1⟩], 7, 8, 0⟩ : Cache Nat Nat) 1
        (fun v => (v + 4, v))).2.current_size = 7 + ((5 : Nat) - 1))) ∧
    ((mutate (fun n : Nat => n)
      (⟨[⟨4, 10, 2⟩, ⟨3, 1, 1⟩], 7, 20, 0⟩ : Cache Nat Nat) 1
      (fun v => (v + 4, v))).2.entries =
      ([⟨4, 10, 2⟩] : List (Entry Nat Nat)) ++ [⟨7, 1, 5⟩] ∧
    (mutate (fun n : Nat => n)
      (⟨[⟨4, 10, 2⟩, ⟨3, 1, 1⟩], 7, 20, 0⟩ : Cache Nat Nat) 1
      (fun v => (v + 4, v))).2.current_size = 7 + ((5 : Nat) - 1)) :=
  ⟨mutate_within_ceiling (fun _ : Nat => 1) (fun n : Nat => n) 1
    ⟨[⟨4, 10, 2⟩, ⟨3, 1, 1⟩], 7, 8, 0⟩ 1 (fun v => (v + 4, v)) ⟨3, 1, 1⟩
    ⟨rfl, by decide, by decide⟩ (by simp [Ceiling]) (by rfl) (by decide),
   (mutate_within_ceiling (fun _ : Nat => 1) (fun n : Nat => n) 1
    ⟨[⟨4, 10, 2⟩, ⟨3, 1, 1⟩], 7, 20, 0⟩ 1 (fun v => (v + 4, v)) ⟨3, 1, 1⟩
    ⟨rfl, by decide, by decide⟩ (by simp [Ceiling]) (by rfl)
    (by decide)).2.2.2.2.2.2 (by decide) (by decide)⟩

theorem ejectStep_reaches (t : Nat) (es : List (Entry K V)) :
    ∀ c : Cache K V, c.entries = es → Ledger c →
      ∃ n, ((ejectStep t)^[n] c).current_size ≤ t := by
  induction es with
  | nil =>
    intro c h hld
    refine ⟨0, ?_⟩
    simp only [Function.iterate_zero, id_eq]
    rw [Ledger, h] at hld
    simp [hld, sizesOf_nil]
  | cons e rest ih =>
    intro c h hld
    by_cases hle : c.current_size ≤ t
    · exact ⟨0, by simpa using hle⟩
    · have hlt : t < c.current_size := by omega
      have hstep : ejectStep t c =
          { c with entries := rest, current_size := c.current_size - e.size } := by
        simp [ejectStep, hlt, remove_lru, h]
      have hld1 : Ledger (K := K) (V := V)
          { c with entries := rest, current_size := c.current_size - e.size } := by
        rw [Ledger, h, sizesOf_cons] at hld
        simp only [Ledger]
        omega
      obtain ⟨n, hn⟩ := ih _ rfl hld1
      refine ⟨n + 1, ?_⟩
      rw [Function.iterate_succ_apply, hstep]
      exact hn

/-- C9: for every cache satisfying the ledger invariant the eviction loop
`eject_to_target(target)` terminates — some number of iterations of its
step makes `current_size ≤ target` hold; each iteration taken while the
guard holds removes the tail entry, strictly decreasing the entry count,
and debits its size, strictly decreasing `current_size` whenever the
per-entry metadata constant is positive; without the emptiness invariant
(a null tail while `current_size > target`), `remove_lru` changes nothing
and the step is a fixed point, so the guard never becomes false. -/
theorem eject_loop_termination (c : Cache K V) (t : Nat) :
    (Ledger c → ∃ n, ((ejectStep t)^[n] c).current_size ≤ t) ∧
    (∀ e rest, c.entries = e :: rest → t < c.current_size →
      (ejectStep t c).entries.length < c.entries.length ∧
      (ejectStep t c).current_size = c.current_size - e.size) ∧
    (0 < metaSize →
      (∀ x ∈ c.entries, x.size = sizeK x.key + sizeV x.value + metaSize) →
      ∀ e rest, c.entries = e :: rest → t < c.current_size →
      (ejectStep t c).current_size < c.current_size) ∧
    (c.entries = [] → t < c.current_size →
      ∀ n, (ejectStep t)^[n] c = c) := by
  refine ⟨fun hld => ejectStep_reaches t c.entries c rfl hld, ?_, ?_, ?_⟩
  · intro e rest h hlt
    have hstep : ejectStep t c =
        { c with entries := rest, current_size := c.current_size - e.size } := by
      simp [ejectStep, hlt, remove_lru, h]
    rw [hstep, h]
    simp
  · intro hmeta hsz e rest h hlt
    have hstep : ejectStep t c =
        { c with entries := rest, current_size := c.current_size - e.size } := by
      simp [ejectStep, hlt, remove_lru, h]
    have hszE := hsz e (by rw [h]; exact List.mem_cons_self e rest)
    rw [hstep]
    simp only []
    omega
  · intro h hlt n
    have hfix : ejectStep t c = c := by
      simp [ejectStep, remove_lru, h]
    exact Function.iterate_fixed hfix n

/-- Closed instance of the termination theorem: the loop terminates on a
sound one-entry cache and, on a degenerate state with an empty list but a
positive ledger, the step is a fixed point forever. -/
theorem eject_loop_termination_witness :
    (∃ n, ((ejectStep 0)^[n]
      (⟨[⟨2, 1, 1⟩], 2, 5, 0⟩ : Cache Nat Nat)).current_size ≤ 0) ∧
    ((ejectStep 0 (⟨[⟨2, 1, 1⟩], 2, 5, 0⟩ : Cache Nat Nat)).entries.length <
      1 ∧
     (ejectStep 0 (⟨[⟨2, 1, 1⟩], 2, 5, 0⟩ : Cache Nat Nat)).current_size =
      2 - 2) ∧
    (ejectStep 0 (⟨[⟨2, 1, 1⟩], 2, 5, 0⟩ : Cache Nat Nat)).current_size < 2 ∧
    ∀ n, (ejectStep 0)^[n] (⟨[], 3, 5, 0⟩ : Cache Nat Nat) =
      ⟨[], 3, 5, 0⟩ :=
  ⟨(eject_loop_termination (fun _ : Nat => 0) (fun n : Nat => n) 1
      ⟨[⟨2, 1, 1⟩], 2, 5, 0⟩ 0).1 rfl,
   (eject_loop_termination (fun _ : Nat => 0) (fun n : Nat => n) 1
      ⟨[⟨2, 1, 1⟩], 2, 5, 0⟩ 0).2.1 ⟨2, 1, 1⟩ [] rfl (by decide),
   (eject_loop_termination (fun _ : Nat => 0) (fun n : Nat => n) 1
      ⟨[⟨2, 1, 1⟩], 2, 5, 0⟩ 0).2.2.1 (by decide) (by decide) ⟨2, 1, 1⟩ []
      rfl (by decide),
   (eject_loop_termination (fun _ : Nat => 0) (fun n : Nat => n) 1
      (⟨[], 3, 5, 0⟩ : Cache Nat Nat) 0).2.2.2 rfl (by decide)⟩

end LruMem
